import Mathlib

/-!
Shallow embedding of the FX option pricing script (src/app6.py): the standard
normal CDF built on the Gauss error function, the Garman-Kohlhagen pricer
fx_option_price, and the option-chain generation (strike grid, ATM strike,
classified rows). Real numbers model Python floats; the exception Python
raises on an invalid logarithm argument is modelled with Except.
-/

open MeasureTheory Set

noncomputable section

/-- Gauss error function, the mathematical function computed by Python's
math.erf: erf x = 2/sqrt(pi) times the integral of exp(-t^2) for t from 0 to x. -/
def erf (x : ℝ) : ℝ := 2 / Real.sqrt Real.pi * ∫ t in (0:ℝ)..x, Real.exp (-t ^ 2)

/-- norm_cdf from app6.py lines 10-12: 0.5 * (1.0 + erf(x / sqrt(2.0))). -/
def norm_cdf (x : ℝ) : ℝ := 0.5 * (1.0 + erf (x / Real.sqrt 2.0))

/-- Failure of the pricer on an invalid logarithm argument; models the
ZeroDivisionError (K = 0) or ValueError (log of a non-positive number) that
Python raises at app6.py line 39, named per the spec's error taxonomy. -/
inductive PricerError
  | InvalidInput
deriving DecidableEq

/-- d1 from app6.py line 39. -/
def d1_val (S K T rd rf sigma : ℝ) : ℝ :=
  (Real.log (S / K) + (rd - rf + 0.5 * sigma * sigma) * T) / (sigma * Real.sqrt T)

/-- d2 from app6.py line 40: d1 - sigma * sqrt(T). -/
def d2_val (S K T rd rf sigma : ℝ) : ℝ :=
  d1_val S K T rd rf sigma - sigma * Real.sqrt T

/-- Call branch of app6.py line 43. -/
def call_price (S K T rd rf sigma : ℝ) : ℝ :=
  S * Real.exp (-rf * T) * norm_cdf (d1_val S K T rd rf sigma)
    - K * Real.exp (-rd * T) * norm_cdf (d2_val S K T rd rf sigma)

/-- Put branch of app6.py line 45. -/
def put_price (S K T rd rf sigma : ℝ) : ℝ :=
  K * Real.exp (-rd * T) * norm_cdf (-(d2_val S K T rd rf sigma))
    - S * Real.exp (-rf * T) * norm_cdf (-(d1_val S K T rd rf sigma))

/-- fx_option_price from app6.py lines 17-47. The degenerate branch (T <= 0 or
sigma <= 0) returns the discounted intrinsic value with d1 and d2 absent. In
the standard branch Python evaluates log(S / K), which raises when K = 0
(division by zero) or S / K <= 0 (log domain error); that failure is modelled
as InvalidInput. -/
def fx_option_price (S K T rd rf sigma : ℝ) (option_type : String) :
    Except PricerError (ℝ × Option ℝ × Option ℝ) :=
  if T ≤ 0 ∨ sigma ≤ 0 then
    Except.ok
      ((if option_type = "Call" then max 0.0 (S * Real.exp (-rf * T) - K * Real.exp (-rd * T))
        else max 0.0 (K * Real.exp (-rd * T) - S * Real.exp (-rf * T))), none, none)
  else if K = 0 ∨ S / K ≤ 0 then Except.error PricerError.InvalidInput
  else
    Except.ok
      ((if option_type = "Call" then call_price S K T rd rf sigma
        else put_price S K T rd rf sigma),
        some (d1_val S K T rd rf sigma), some (d2_val S K T rd rf sigma))

/-- Price component of a pricer result (first element of the returned tuple). -/
def priceOf (r : Except PricerError (ℝ × Option ℝ × Option ℝ)) : ℝ :=
  match r with
  | Except.ok p => p.1
  | Except.error _ => 0

/-- Round half to even to the nearest integer, the tie-breaking rule shared by
Python's round and numpy's np.round. -/
def roundHalfEven (y : ℝ) : ℤ :=
  if y - ⌊y⌋ < 1 / 2 then ⌊y⌋
  else if 1 / 2 < y - ⌊y⌋ then ⌊y⌋ + 1
  else if ⌊y⌋ % 2 = 0 then ⌊y⌋ else ⌊y⌋ + 1

/-- round(x, n) and np.round(x, n): round half to even at n decimal places. -/
def pyRound (n : ℕ) (x : ℝ) : ℝ := (roundHalfEven (x * 10 ^ n) : ℝ) / 10 ^ n

/-- Number of elements numpy's arange(start, stop, step) produces for a
positive step: the ceiling of (stop - start) / step, clamped at zero. -/
def arangeLen (start stop step : ℝ) : ℕ := (⌈(stop - start) / step⌉).toNat

/-- Strike grid of app6.py lines 81-84:
np.round(np.arange(spot - 2.0, spot + 3.0 + 1e-9, 0.25), 4). -/
def strikes (spot : ℝ) : List ℝ :=
  (List.range (arangeLen (spot - 2.0) (spot + 3.0 + 1e-9) 0.25)).map
    (fun i : ℕ => pyRound 4 (spot - 2.0 + 0.25 * (i : ℝ)))

/-- Python's min(x :: xs, key = f): fold left keeping the current best,
replacing it only on a strictly smaller key, so the first minimizer wins. -/
def pyMin (f : ℝ → ℝ) (x : ℝ) (xs : List ℝ) : ℝ :=
  xs.foldl (fun b y => if f y < f b then y else b) x

/-- atm_strike from app6.py line 87: min(strikes, key=lambda x: abs(x - spot)).
Python's min raises on an empty sequence; the grid is never empty, so the []
case is unreachable. -/
def atm_strike (spot : ℝ) : ℝ :=
  match strikes spot with
  | [] => 0
  | x :: xs => pyMin (fun k => |k - spot|) x xs

/-- One row of the generated option chain (app6.py line 101). -/
structure ChainRow where
  strike : ℝ
  call : Except PricerError ℝ
  put : Except PricerError ℝ
  status : String

/-- Body of the loop of app6.py lines 90-101: the row appended for strike K,
with prices rounded to 6 decimals and the ATM/ITM/OTM classification of lines
94-99. A pricing exception would abort the Python loop; here it is carried in
the row. -/
def chain_row (spot T rd rf vol K : ℝ) : ChainRow :=
  { strike := K
    call := (fx_option_price spot K T rd rf vol "Call").map (fun r => pyRound 6 r.1)
    put := (fx_option_price spot K T rd rf vol "Put").map (fun r => pyRound 6 r.1)
    status :=
      if |K - atm_strike spot| ≤ 1e-6 then "ATM"
      else if K < spot then "ITM"
      else "OTM" }

/-- Chain rows of app6.py lines 89-101: one row per strike. -/
def chain_rows (spot T rd rf vol : ℝ) : List ChainRow :=
  (strikes spot).map (chain_row spot T rd rf vol)

/-- Density of the standard normal distribution, used to state that norm_cdf
is the standard normal CDF. -/
def std_normal_pdf (u : ℝ) : ℝ := (Real.sqrt (2 * Real.pi))⁻¹ * Real.exp (-u ^ 2 / 2)

end

theorem erf_neg (x : ℝ) : erf (-x) = -erf x := by
  unfold erf
  have h2 := intervalIntegral.integral_comp_neg (a := (0:ℝ)) (b := x)
    (fun t => Real.exp (-t ^ 2))
  simp only [neg_sq, neg_zero] at h2
  have h3 : (∫ t in (0:ℝ)..(-x), Real.exp (-t ^ 2))
      = -∫ t in (-x)..(0:ℝ), Real.exp (-t ^ 2) :=
    intervalIntegral.integral_symm (-x) 0
  rw [h3, ← h2]
  ring

theorem norm_cdf_add_neg (x : ℝ) : norm_cdf x + norm_cdf (-x) = 1 := by
  unfold norm_cdf
  have hdiv : (-x) / Real.sqrt 2.0 = -(x / Real.sqrt 2.0) := by ring
  rw [hdiv, erf_neg]
  ring

theorem fx_option_price_degenerate (S K T rd rf sigma : ℝ) (ot : String)
    (h : T ≤ 0 ∨ sigma ≤ 0) :
    fx_option_price S K T rd rf sigma ot =
      Except.ok
        ((if ot = "Call" then max 0 (S * Real.exp (-rf * T) - K * Real.exp (-rd * T))
          else max 0 (K * Real.exp (-rd * T) - S * Real.exp (-rf * T))), none, none) := by
  unfold fx_option_price
  rw [if_pos h]
  norm_num

theorem fx_option_price_standard (S K T rd rf sigma : ℝ) (ot : String)
    (hT : 0 < T) (hs : 0 < sigma) (hlog : ¬(K = 0 ∨ S / K ≤ 0)) :
    fx_option_price S K T rd rf sigma ot =
      Except.ok
        ((if ot = "Call" then call_price S K T rd rf sigma else put_price S K T rd rf sigma),
          some (d1_val S K T rd rf sigma), some (d2_val S K T rd rf sigma)) := by
  have h1 : ¬(T ≤ 0 ∨ sigma ≤ 0) := by
    push_neg
    exact ⟨hT, hs⟩
  unfold fx_option_price
  rw [if_neg h1, if_neg hlog]

theorem log_guard_of_pos {S K : ℝ} (hS : 0 < S) (hK : 0 < K) : ¬(K = 0 ∨ S / K ≤ 0) := by
  push_neg
  exact ⟨ne_of_gt hK, div_pos hS hK⟩

/-- C9: for every real x, norm_cdf x + norm_cdf (-x) = 1, exactly in real
arithmetic, since erf is odd. -/
theorem C9_norm_cdf_symmetry (x : ℝ) : norm_cdf x + norm_cdf (-x) = 1 :=
  norm_cdf_add_neg x

/-- C10: for every option_type string other than "Call" (lowercase "call",
misspellings, "Put", anything), fx_option_price computes the Put price: the
dispatch has no rejection of unknown kinds, in both the degenerate and the
standard branch. -/
theorem C10_non_call_priced_as_put (ot : String) (h : ot ≠ "Call")
    (S K T rd rf sigma : ℝ) :
    fx_option_price S K T rd rf sigma ot = fx_option_price S K T rd rf sigma "Put" := by
  by_cases h1 : T ≤ 0 ∨ sigma ≤ 0
  · simp [fx_option_price, h1, h]
  · by_cases h2 : K = 0 ∨ S / K ≤ 0
    · simp [fx_option_price, h1, h2]
    · simp [fx_option_price, h1, h2, h]

/-- Witness for C10 at the lowercase string "call". -/
theorem C10_witness :
    fx_option_price 1 1 1 0 0 1 "call" = fx_option_price 1 1 1 0 0 1 "Put" :=
  C10_non_call_priced_as_put "call" (by decide) 1 1 1 0 0 1

/-- C2: whenever T <= 0 or sigma <= 0, fx_option_price returns the discounted
intrinsic value (max(0, S*exp(-rf*T) - K*exp(-rd*T)) for a call and
max(0, K*exp(-rd*T) - S*exp(-rf*T)) otherwise) with d1 and d2 absent (none),
as a successful result, not a failure. -/
theorem C2_degenerate_intrinsic (S K T rd rf sigma : ℝ) (ot : String)
    (h : T ≤ 0 ∨ sigma ≤ 0) :
    fx_option_price S K T rd rf sigma ot =
      Except.ok
        ((if ot = "Call" then max 0 (S * Real.exp (-rf * T) - K * Real.exp (-rd * T))
          else max 0 (K * Real.exp (-rd * T) - S * Real.exp (-rf * T))), none, none) :=
  fx_option_price_degenerate S K T rd rf sigma ot h

/-- Witness for C2: the spec's scenario T = 0, S = 84, K = 83, rd = rf = 0
gives a call price of exactly 1 with d1 and d2 absent. -/
theorem C2_witness :
    fx_option_price 84 83 0 0 0 0.08 "Call" = Except.ok (1, none, none) := by
  rw [C2_degenerate_intrinsic 84 83 0 0 0 0.08 "Call" (Or.inl le_rfl)]
  norm_num

/-- C4 counterexample: with spot = -1 and strike = -1 (both non-positive) in
the non-degenerate branch (T = 1 > 0, sigma = 1 > 0), the pricer does NOT
signal InvalidInput: log(S/K) = log 1 is well defined, so the option is
silently priced, refuting the claim that spot <= 0 or strike <= 0 always
raises InvalidInput. -/
theorem C4_counterexample :
    fx_option_price (-1) (-1) 1 0 0 1 "Call" ≠ Except.error PricerError.InvalidInput := by
  rw [fx_option_price_standard (-1) (-1) 1 0 0 1 "Call" one_pos one_pos (by norm_num)]
  simp

/-- C4 amended: in the non-degenerate branch (T > 0 and sigma > 0) the pricer
signals InvalidInput exactly when the logarithm argument is invalid, i.e. when
K = 0 or S / K <= 0; spot and strike both negative slip through. -/
theorem C4_invalid_input (S K T rd rf sigma : ℝ) (ot : String)
    (hT : 0 < T) (hs : 0 < sigma) (h : K = 0 ∨ S / K ≤ 0) :
    fx_option_price S K T rd rf sigma ot = Except.error PricerError.InvalidInput := by
  have h1 : ¬(T ≤ 0 ∨ sigma ≤ 0) := by
    push_neg
    exact ⟨hT, hs⟩
  unfold fx_option_price
  rw [if_neg h1, if_pos h]

/-- Witness for C4: the spec's scenario S = 83.20, K = 0 with T > 0 and
sigma > 0 raises InvalidInput on a call. -/
theorem C4_witness :
    fx_option_price 83.20 0 (30 / 365) 0.065 0.052 0.08 "Call"
      = Except.error PricerError.InvalidInput :=
  C4_invalid_input 83.20 0 (30 / 365) 0.065 0.052 0.08 "Call"
    (by norm_num) (by norm_num) (Or.inl rfl)

/-- C1: for S > 0, K > 0, T > 0, sigma > 0 and any rates, the standard branch
computes d1 = (log(S/K) + (rd - rf + 0.5*sigma^2)*T)/(sigma*sqrt T) and
d2 = d1 - sigma*sqrt T, and returns S*exp(-rf*T)*CDF(d1) - K*exp(-rd*T)*CDF(d2)
for a Call and K*exp(-rd*T)*CDF(-d2) - S*exp(-rf*T)*CDF(-d1) for a Put, with
both d1 and d2 present in the result. -/
theorem C1_standard_formula (S K T rd rf sigma : ℝ)
    (hS : 0 < S) (hK : 0 < K) (hT : 0 < T) (hs : 0 < sigma) :
    fx_option_price S K T rd rf sigma "Call" =
      Except.ok
        (S * Real.exp (-rf * T) *
            norm_cdf ((Real.log (S / K) + (rd - rf + 0.5 * sigma * sigma) * T)
              / (sigma * Real.sqrt T))
          - K * Real.exp (-rd * T) *
            norm_cdf ((Real.log (S / K) + (rd - rf + 0.5 * sigma * sigma) * T)
                / (sigma * Real.sqrt T) - sigma * Real.sqrt T),
          some ((Real.log (S / K) + (rd - rf + 0.5 * sigma * sigma) * T)
            / (sigma * Real.sqrt T)),
          some ((Real.log (S / K) + (rd - rf + 0.5 * sigma * sigma) * T)
            / (sigma * Real.sqrt T) - sigma * Real.sqrt T))
    ∧ fx_option_price S K T rd rf sigma "Put" =
      Except.ok
        (K * Real.exp (-rd * T) *
            norm_cdf (-((Real.log (S / K) + (rd - rf + 0.5 * sigma * sigma) * T)
                / (sigma * Real.sqrt T) - sigma * Real.sqrt T))
          - S * Real.exp (-rf * T) *
            norm_cdf (-((Real.log (S / K) + (rd - rf + 0.5 * sigma * sigma) * T)
              / (sigma * Real.sqrt T))),
          some ((Real.log (S / K) + (rd - rf + 0.5 * sigma * sigma) * T)
            / (sigma * Real.sqrt T)),
          some ((Real.log (S / K) + (rd - rf + 0.5 * sigma * sigma) * T)
            / (sigma * Real.sqrt T) - sigma * Real.sqrt T)) := by
  constructor
  · rw [fx_option_price_standard S K T rd rf sigma "Call" hT hs (log_guard_of_pos hS hK)]
    simp [call_price, d1_val, d2_val]
  · rw [fx_option_price_standard S K T rd rf sigma "Put" hT hs (log_guard_of_pos hS hK)]
    simp [put_price, d1_val, d2_val]

/-- Witness for C1 at S = 1, K = 1, T = 1, rd = rf = 0, sigma = 1: d1 = 0.5,
d2 = -0.5, and the call price is CDF(0.5) - CDF(-0.5). -/
theorem C1_witness :
    fx_option_price 1 1 1 0 0 1 "Call"
      = Except.ok (norm_cdf 0.5 - norm_cdf (-0.5), some 0.5, some (-0.5)) := by
  have h := (C1_standard_formula 1 1 1 0 0 1 one_pos one_pos one_pos one_pos).1
  rw [h]
  norm_num

/-- C3: put-call parity, exactly in real arithmetic: for S, K, T, sigma > 0
and any rates, callPrice - putPrice = S*exp(-rf*T) - K*exp(-rd*T), a
consequence of CDF(x) + CDF(-x) = 1. -/
theorem C3_put_call_parity (S K T rd rf sigma : ℝ)
    (hS : 0 < S) (hK : 0 < K) (hT : 0 < T) (hs : 0 < sigma) :
    priceOf (fx_option_price S K T rd rf sigma "Call")
      - priceOf (fx_option_price S K T rd rf sigma "Put")
      = S * Real.exp (-rf * T) - K * Real.exp (-rd * T) := by
  rw [fx_option_price_standard S K T rd rf sigma "Call" hT hs (log_guard_of_pos hS hK),
    fx_option_price_standard S K T rd rf sigma "Put" hT hs (log_guard_of_pos hS hK)]
  simp only [priceOf]
  rw [if_pos trivial, if_neg (show ¬(("Put" : String) = "Call") by decide)]
  unfold call_price put_price
  linear_combination Real.exp (-rf * T) * S * norm_cdf_add_neg (d1_val S K T rd rf sigma)
    - Real.exp (-rd * T) * K * norm_cdf_add_neg (d2_val S K T rd rf sigma)

/-- Witness for C3 at S = 2, K = 1, T = 1, rd = 0, rf = 0, sigma = 1. -/
theorem C3_witness :
    priceOf (fx_option_price 2 1 1 0 0 1 "Call") - priceOf (fx_option_price 2 1 1 0 0 1 "Put")
      = 2 * Real.exp (-0 * 1) - 1 * Real.exp (-0 * 1) :=
  C3_put_call_parity 2 1 1 0 0 1 two_pos one_pos one_pos one_pos

theorem std_normal_pdf_nonneg (u : ℝ) : 0 ≤ std_normal_pdf u := by
  unfold std_normal_pdf
  positivity

theorem integrable_std_normal_pdf : Integrable std_normal_pdf := by
  have h : std_normal_pdf = fun u => (Real.sqrt (2 * Real.pi))⁻¹ * Real.exp (-(1/2) * u ^ 2) := by
    funext u
    unfold std_normal_pdf
    ring_nf
  rw [h]
  exact (integrable_exp_neg_mul_sq (by norm_num)).const_mul _

theorem integral_std_normal_pdf : ∫ u, std_normal_pdf u = 1 := by
  have h : ∫ u, std_normal_pdf u
      = (Real.sqrt (2 * Real.pi))⁻¹ * ∫ u, Real.exp (-(1/2) * u ^ 2) := by
    rw [← integral_mul_left]
    congr 1
    funext u
    unfold std_normal_pdf
    ring_nf
  rw [h, integral_gaussian, show Real.pi / (1/2) = 2 * Real.pi by ring, inv_mul_cancel₀]
  exact Real.sqrt_ne_zero'.mpr (by positivity)

theorem integral_Iic_zero_std_normal : ∫ u in Iic (0:ℝ), std_normal_pdf u = 1 / 2 := by
  have hpdf : (fun u => std_normal_pdf (-u)) = std_normal_pdf := by
    funext u
    unfold std_normal_pdf
    rw [neg_sq]
  have h := integral_comp_neg_Iic (0:ℝ) std_normal_pdf
  rw [neg_zero, hpdf] at h
  have hadd := integral_add_compl (s := Iic (0:ℝ)) measurableSet_Iic
    integrable_std_normal_pdf (μ := volume)
  rw [Set.compl_Iic, integral_std_normal_pdf] at hadd
  linarith [h, hadd]

theorem sqrt_two_ne_zero : Real.sqrt 2 ≠ 0 := by
  positivity

theorem norm_cdf_eq_integral (x : ℝ) :
    norm_cdf x = ∫ u in Iic x, std_normal_pdf u := by
  have hsplit := intervalIntegral.integral_Iic_sub_Iic
    (integrable_std_normal_pdf.integrableOn (s := Iic (0:ℝ)))
    (integrable_std_normal_pdf.integrableOn (s := Iic x))
  have h20 : Real.sqrt 2.0 = Real.sqrt 2 := by norm_num
  have hsq : ∀ t : ℝ, std_normal_pdf t
      = (Real.sqrt (2 * Real.pi))⁻¹ * Real.exp (-(t / Real.sqrt 2) ^ 2) := by
    intro t
    have harg : -t ^ 2 / 2 = -(t / Real.sqrt 2) ^ 2 := by
      rw [div_pow, Real.sq_sqrt (by norm_num : (0:ℝ) ≤ 2)]
      ring
    unfold std_normal_pdf
    rw [harg]
  have hint : ∫ t in (0:ℝ)..x, std_normal_pdf t
      = (Real.sqrt (2 * Real.pi))⁻¹ *
          (Real.sqrt 2 * ∫ u in (0:ℝ)..(x / Real.sqrt 2), Real.exp (-u ^ 2)) := by
    calc ∫ t in (0:ℝ)..x, std_normal_pdf t
        = ∫ t in (0:ℝ)..x, (Real.sqrt (2 * Real.pi))⁻¹ * Real.exp (-(t / Real.sqrt 2) ^ 2) := by
          simp only [hsq]
      _ = (Real.sqrt (2 * Real.pi))⁻¹ * ∫ t in (0:ℝ)..x, Real.exp (-(t / Real.sqrt 2) ^ 2) := by
          rw [intervalIntegral.integral_const_mul]
      _ = (Real.sqrt (2 * Real.pi))⁻¹ *
            (Real.sqrt 2 * ∫ u in (0:ℝ)..(x / Real.sqrt 2), Real.exp (-u ^ 2)) := by
          have h3 := intervalIntegral.integral_comp_div (a := (0:ℝ)) (b := x)
            (c := Real.sqrt 2) (fun u => Real.exp (-u ^ 2)) sqrt_two_ne_zero
          rw [zero_div, smul_eq_mul] at h3
          rw [h3]
  have heq : (∫ u in Iic x, std_normal_pdf u)
      = 1 / 2 + ∫ t in (0:ℝ)..x, std_normal_pdf t := by
    have hz := integral_Iic_zero_std_normal
    linarith [hsplit]
  have hpi : Real.sqrt (2 * Real.pi) = Real.sqrt 2 * Real.sqrt Real.pi :=
    Real.sqrt_mul (by norm_num) _
  have hspi : Real.sqrt Real.pi ≠ 0 := by positivity
  unfold norm_cdf erf
  rw [h20, heq, hint, hpi]
  field_simp
  ring

theorem norm_cdf_shift_le (x s : ℝ) (hs : 0 ≤ s) :
    norm_cdf (x - s) * Real.exp (s ^ 2 / 2 - x * s) ≤ norm_cdf x := by
  have hfun : ∀ u : ℝ, std_normal_pdf (u - s) * Real.exp (s ^ 2 / 2 - x * s)
      = std_normal_pdf u * Real.exp (s * (u - x)) := by
    intro u
    unfold std_normal_pdf
    rw [mul_assoc, ← Real.exp_add, mul_assoc, ← Real.exp_add]
    have harg : -(u - s) ^ 2 / 2 + (s ^ 2 / 2 - x * s) = -u ^ 2 / 2 + s * (u - x) := by
      ring
    rw [harg]
  have hA : (∫ u in Iic (x - s), std_normal_pdf u)
      = ∫ u in Iic x, std_normal_pdf (u - s) := by
    have h1 : (Iic x).indicator (fun u => std_normal_pdf (u - s))
        = fun u => (Iic (x - s)).indicator std_normal_pdf (u - s) := by
      funext u
      by_cases h : u ≤ x
      · rw [Set.indicator_of_mem (mem_Iic.mpr h),
          Set.indicator_of_mem (mem_Iic.mpr (by linarith))]
      · rw [Set.indicator_of_not_mem (by simpa using h),
          Set.indicator_of_not_mem (by simp only [mem_Iic, not_le]; linarith)]
    calc ∫ u in Iic (x - s), std_normal_pdf u
        = ∫ u, (Iic (x - s)).indicator std_normal_pdf u :=
          (integral_indicator measurableSet_Iic).symm
      _ = ∫ u, (Iic (x - s)).indicator std_normal_pdf (u - s) :=
          (integral_sub_right_eq_self ((Iic (x - s)).indicator std_normal_pdf) s).symm
      _ = ∫ u, (Iic x).indicator (fun v => std_normal_pdf (v - s)) u := by
          rw [← h1]
      _ = ∫ u in Iic x, std_normal_pdf (u - s) := integral_indicator measurableSet_Iic
  have hf : Integrable (fun u => std_normal_pdf u * Real.exp (s * (u - x))) := by
    have h2 : (fun u => std_normal_pdf u * Real.exp (s * (u - x)))
        = fun u => std_normal_pdf (u - s) * Real.exp (s ^ 2 / 2 - x * s) := by
      funext u
      rw [hfun u]
    rw [h2]
    exact (integrable_std_normal_pdf.comp_sub_right s).mul_const _
  have hpt : ∀ u ∈ Iic x, std_normal_pdf u * Real.exp (s * (u - x)) ≤ std_normal_pdf u := by
    intro u hu
    have hux : u - x ≤ 0 := sub_nonpos.mpr hu
    have h1 : Real.exp (s * (u - x)) ≤ 1 := by
      rw [Real.exp_le_one_iff]
      exact mul_nonpos_iff.mpr (Or.inl ⟨hs, hux⟩)
    calc std_normal_pdf u * Real.exp (s * (u - x)) ≤ std_normal_pdf u * 1 :=
        mul_le_mul_of_nonneg_left h1 (std_normal_pdf_nonneg u)
      _ = std_normal_pdf u := mul_one _
  rw [norm_cdf_eq_integral, norm_cdf_eq_integral]
  calc (∫ u in Iic (x - s), std_normal_pdf u) * Real.exp (s ^ 2 / 2 - x * s)
      = ∫ u in Iic x, std_normal_pdf (u - s) * Real.exp (s ^ 2 / 2 - x * s) := by
        rw [hA, ← integral_mul_right]
    _ = ∫ u in Iic x, std_normal_pdf u * Real.exp (s * (u - x)) := by
        simp only [hfun]
    _ ≤ ∫ u in Iic x, std_normal_pdf u :=
        setIntegral_mono_on hf.integrableOn integrable_std_normal_pdf.integrableOn
          measurableSet_Iic hpt

theorem gk_call_nonneg (A B d s : ℝ) (hA : 0 ≤ A) (hs : 0 ≤ s)
    (hid : B = A * Real.exp (s ^ 2 / 2 - d * s)) :
    0 ≤ A * norm_cdf d - B * norm_cdf (d - s) := by
  rw [hid]
  have hkey := norm_cdf_shift_le d s hs
  nlinarith [hkey, hA, Real.exp_pos (s ^ 2 / 2 - d * s)]

theorem gk_put_nonneg (A B d s : ℝ) (hB : 0 ≤ B) (hs : 0 ≤ s)
    (hid : B = A * Real.exp (s ^ 2 / 2 - d * s)) :
    0 ≤ B * norm_cdf (-(d - s)) - A * norm_cdf (-d) := by
  have hA2 : A = B * Real.exp (-(s ^ 2 / 2 - d * s)) := by
    rw [hid, mul_assoc, ← Real.exp_add,
      show s ^ 2 / 2 - d * s + -(s ^ 2 / 2 - d * s) = 0 from by ring,
      Real.exp_zero, mul_one]
  rw [hA2]
  have hkey := norm_cdf_shift_le (-(d - s)) s hs
  rw [show -(d - s) - s = -d from by ring,
    show s ^ 2 / 2 - -(d - s) * s = -(s ^ 2 / 2 - d * s) from by ring] at hkey
  nlinarith [hkey, hB, Real.exp_pos (-(s ^ 2 / 2 - d * s))]

theorem discount_identity (S K T rd rf sigma : ℝ)
    (hS : 0 < S) (hK : 0 < K) (hT : 0 < T) (hsig : 0 < sigma) :
    K * Real.exp (-rd * T) = S * Real.exp (-rf * T) *
      Real.exp ((sigma * Real.sqrt T) ^ 2 / 2
        - d1_val S K T rd rf sigma * (sigma * Real.sqrt T)) := by
  have hsT : 0 < Real.sqrt T := Real.sqrt_pos.mpr hT
  have hs1 : sigma ≠ 0 := ne_of_gt hsig
  have hs2 : Real.sqrt T ≠ 0 := ne_of_gt hsT
  have hd1 : d1_val S K T rd rf sigma * (sigma * Real.sqrt T)
      = Real.log (S / K) + (rd - rf + 0.5 * sigma * sigma) * T := by
    unfold d1_val
    field_simp
  have hsq : (sigma * Real.sqrt T) ^ 2 = sigma * sigma * T := by
    rw [mul_pow, Real.sq_sqrt hT.le]
    ring
  rw [hd1, hsq,
    show sigma * sigma * T / 2 - (Real.log (S / K) + (rd - rf + 0.5 * sigma * sigma) * T)
      = -Real.log (S / K) + (-rd * T - -rf * T) from by ring,
    Real.exp_add, Real.exp_neg, Real.exp_log (div_pos hS hK), inv_div, Real.exp_sub]
  have h1 := Real.exp_ne_zero (-rf * T)
  have h2 : S ≠ 0 := ne_of_gt hS
  field_simp

/-- C7: norm_cdf computes 0.5 * (1 + erf (x / sqrt 2)) and this equals the
standard normal CDF, the integral of the standard normal density over
(-infinity, x]; it is total on the reals with no failure modes. -/
theorem C7_norm_cdf_is_gaussian_cdf (x : ℝ) :
    norm_cdf x = 0.5 * (1 + erf (x / Real.sqrt 2))
      ∧ norm_cdf x = ∫ u in Iic x, std_normal_pdf u := by
  constructor
  · norm_num [norm_cdf]
  · exact norm_cdf_eq_integral x

/-- C8: for every valid input (S > 0, K > 0, T >= 0, sigma >= 0, any rates,
any option type) the price returned by fx_option_price is non-negative: by
max(0, .) in the degenerate branch, and by the Garman-Kohlhagen inequality in
the standard branch. -/
theorem C8_price_nonneg (S K T rd rf sigma : ℝ) (ot : String)
    (hS : 0 < S) (hK : 0 < K) (hT : 0 ≤ T) (hsig : 0 ≤ sigma) :
    0 ≤ priceOf (fx_option_price S K T rd rf sigma ot) := by
  by_cases hdeg : T ≤ 0 ∨ sigma ≤ 0
  · rw [fx_option_price_degenerate S K T rd rf sigma ot hdeg]
    simp only [priceOf]
    by_cases hot : ot = "Call"
    · rw [if_pos hot]
      exact le_max_left _ _
    · rw [if_neg hot]
      exact le_max_left _ _
  · push_neg at hdeg
    rw [fx_option_price_standard S K T rd rf sigma ot hdeg.1 hdeg.2
      (log_guard_of_pos hS hK)]
    simp only [priceOf]
    have hid := discount_identity S K T rd rf sigma hS hK hdeg.1 hdeg.2
    by_cases hot : ot = "Call"
    · rw [if_pos hot]
      unfold call_price d2_val
      exact gk_call_nonneg _ _ _ _ (by positivity) (by positivity) hid
    · rw [if_neg hot]
      unfold put_price d2_val
      exact gk_put_nonneg _ _ _ _ (by positivity) (by positivity) hid

/-- Witness for C8 at the spec's scenario S = 83.2, K = 83, T = 30/365,
rd = 0.065, rf = 0.052, sigma = 0.08 for a Call. -/
theorem C8_witness :
    0 ≤ priceOf (fx_option_price 83.2 83 (30 / 365) 0.065 0.052 0.08 "Call") :=
  C8_price_nonneg 83.2 83 (30 / 365) 0.065 0.052 0.08 "Call"
    (by norm_num) (by norm_num) (by norm_num) (by norm_num)


theorem roundHalfEven_add_even (y : ℝ) (n : ℤ) (hn : n % 2 = 0) :
    roundHalfEven (y + (n : ℝ)) = roundHalfEven y + n := by
  unfold roundHalfEven
  rw [Int.floor_add_int]
  have hfrac : y + (n : ℝ) - ((⌊y⌋ + n : ℤ) : ℝ) = y - ⌊y⌋ := by
    push_cast
    ring
  rw [hfrac]
  have hmod : (⌊y⌋ + n) % 2 = ⌊y⌋ % 2 := by omega
  rw [hmod]
  by_cases h1 : y - ⌊y⌋ < 1 / 2
  · rw [if_pos h1, if_pos h1]
  · rw [if_neg h1, if_neg h1]
    by_cases h2 : 1 / 2 < y - ⌊y⌋
    · rw [if_pos h2, if_pos h2]
      ring
    · rw [if_neg h2, if_neg h2]
      by_cases h3 : ⌊y⌋ % 2 = 0
      · rw [if_pos h3, if_pos h3]
      · rw [if_neg h3, if_neg h3]
        ring

theorem pyRound4_quarter (x : ℝ) (i : ℕ) :
    pyRound 4 (x + 0.25 * (i : ℝ)) = pyRound 4 x + 0.25 * (i : ℝ) := by
  unfold pyRound
  have harg : (x + 0.25 * (i : ℝ)) * 10 ^ 4 = x * 10 ^ 4 + ((2500 * (i : ℤ) : ℤ) : ℝ) := by
    push_cast
    ring
  rw [harg, roundHalfEven_add_even _ _ (by omega)]
  push_cast
  ring

theorem arangeLen_grid (spot : ℝ) :
    arangeLen (spot - 2.0) (spot + 3.0 + 1e-9) 0.25 = 21 := by
  unfold arangeLen
  have hq : (spot + 3.0 + 1e-9 - (spot - 2.0)) / 0.25 = 20 + 1 / 250000000 := by
    ring_nf
  rw [hq]
  have hceil : ⌈(20 + 1 / 250000000 : ℝ)⌉ = (21 : ℤ) := by
    rw [Int.ceil_eq_iff]
    constructor
    · norm_num
    · norm_num
  rw [hceil]
  rfl

theorem strikes_eq (spot : ℝ) :
    strikes spot = (List.range 21).map (fun i : ℕ => pyRound 4 (spot - 2.0 + 0.25 * (i : ℝ))) := by
  unfold strikes
  rw [arangeLen_grid]

theorem strikes_eq_ap (spot : ℝ) :
    strikes spot = (List.range 21).map (fun i : ℕ => pyRound 4 (spot - 2.0) + 0.25 * (i : ℝ)) := by
  rw [strikes_eq]
  apply List.map_congr_left
  intro i _
  exact pyRound4_quarter (spot - 2.0) i

theorem strikes_length (spot : ℝ) : (strikes spot).length = 21 := by
  rw [strikes_eq, List.length_map, List.length_range]

theorem mem_strikes (spot K : ℝ) :
    K ∈ strikes spot ↔ ∃ i : ℕ, i < 21 ∧ K = pyRound 4 (spot - 2.0) + 0.25 * (i : ℝ) := by
  rw [strikes_eq_ap]
  simp only [List.mem_map, List.mem_range]
  constructor
  · rintro ⟨i, hi, rfl⟩
    exact ⟨i, hi, rfl⟩
  · rintro ⟨i, hi, rfl⟩
    exact ⟨i, hi, rfl⟩

theorem strikes_sep (spot : ℝ) :
    ∀ K ∈ strikes spot, ∀ M ∈ strikes spot, K ≠ M → ¬(|K - M| ≤ 1e-6) := by
  intro K hK M hM hne hle
  obtain ⟨i, hi, rfl⟩ := (mem_strikes spot K).mp hK
  obtain ⟨j, hj, rfl⟩ := (mem_strikes spot M).mp hM
  have hij : (i : ℤ) ≠ (j : ℤ) := by
    intro h
    apply hne
    have : i = j := by exact_mod_cast h
    rw [this]
  have h1 : (1 : ℤ) ≤ |(i : ℤ) - (j : ℤ)| := Int.one_le_abs (by omega)
  have h1r : (1 : ℝ) ≤ |(i : ℝ) - (j : ℝ)| := by exact_mod_cast h1
  have heq2 : pyRound 4 (spot - 2.0) + 0.25 * (i : ℝ)
      - (pyRound 4 (spot - 2.0) + 0.25 * (j : ℝ)) = 0.25 * ((i : ℝ) - (j : ℝ)) := by
    ring
  rw [heq2, abs_mul, abs_of_pos (by norm_num : (0:ℝ) < 0.25)] at hle
  nlinarith [h1r, hle]

theorem strikes_nodup (spot : ℝ) : (strikes spot).Nodup := by
  rw [strikes_eq_ap]
  refine List.Nodup.map_on ?_ (List.nodup_range 21)
  intro i _ j _ hfe
  have h1 : 0.25 * (i : ℝ) = 0.25 * (j : ℝ) := by linarith [hfe]
  have h2 : (i : ℝ) = (j : ℝ) := by linarith
  exact_mod_cast h2

theorem strikes_chain (spot : ℝ) : List.Chain' (· < ·) (strikes spot) := by
  rw [strikes_eq_ap, List.chain'_iff_get]
  intro i h
  simp only [List.get_eq_getElem, List.getElem_map, List.getElem_range]
  have hcast : ((i : ℝ) : ℝ) < ((i + 1 : ℕ) : ℝ) := by
    push_cast
    linarith
  linarith [hcast]

theorem pyMin_spec (f : ℝ → ℝ) (x : ℝ) (xs : List ℝ) :
    ∃ l1 l2, x :: xs = l1 ++ pyMin f x xs :: l2
      ∧ (∀ z ∈ l1, f (pyMin f x xs) < f z)
      ∧ (∀ z ∈ x :: xs, f (pyMin f x xs) ≤ f z) := by
  induction xs generalizing x with
  | nil =>
    refine ⟨[], [], rfl, ?_, ?_⟩
    · intro z hz
      exact absurd hz (List.not_mem_nil z)
    · intro z hz
      rw [List.mem_singleton] at hz
      subst hz
      exact le_refl _
  | cons y ys ih =>
    have hstep : pyMin f x (y :: ys) = pyMin f (if f y < f x then y else x) ys := rfl
    by_cases hc : f y < f x
    · rw [hstep, if_pos hc]
      obtain ⟨l1, l2, heq, hlt, hle⟩ := ih y
      refine ⟨x :: l1, l2, ?_, ?_, ?_⟩
      · rw [List.cons_append]
        exact congrArg (List.cons x) heq
      · intro z hz
        rcases List.mem_cons.mp hz with hz | hz
        · subst hz
          exact lt_of_le_of_lt (hle y (List.mem_cons_self y ys)) hc
        · exact hlt z hz
      · intro z hz
        rcases List.mem_cons.mp hz with hz | hz
        · subst hz
          exact le_of_lt (lt_of_le_of_lt (hle y (List.mem_cons_self y ys)) hc)
        · exact hle z hz
    · rw [hstep, if_neg hc]
      push_neg at hc
      obtain ⟨l1, l2, heq, hlt, hle⟩ := ih x
      cases l1 with
      | nil =>
        rw [List.nil_append] at heq
        injection heq with hm hl2
        refine ⟨[], y :: ys, ?_, ?_, ?_⟩
        · rw [List.nil_append, ← hm]
        · intro z hz
          exact absurd hz (List.not_mem_nil z)
        · intro z hz
          rcases List.mem_cons.mp hz with hz | hz
          · subst hz
            exact hle _ (List.mem_cons_self _ _)
          · rcases List.mem_cons.mp hz with hz | hz
            · subst hz
              exact le_trans (hle _ (List.mem_cons_self _ _)) hc
            · exact hle z (List.mem_cons_of_mem x hz)
      | cons w l1t =>
        rw [List.cons_append] at heq
        injection heq with hw hys
        have hx_in : x ∈ w :: l1t := by
          rw [hw]
          exact List.mem_cons_self w l1t
        refine ⟨x :: y :: l1t, l2, ?_, ?_, ?_⟩
        · rw [List.cons_append, List.cons_append, ← hys]
        · intro z hz
          rcases List.mem_cons.mp hz with hz | hz
          · subst hz
            exact hlt _ hx_in
          · rcases List.mem_cons.mp hz with hz | hz
            · subst hz
              exact lt_of_lt_of_le (hlt _ hx_in) hc
            · exact hlt z (List.mem_cons_of_mem w hz)
        · intro z hz
          rcases List.mem_cons.mp hz with hz | hz
          · subst hz
            exact hle _ (List.mem_cons_self _ _)
          · rcases List.mem_cons.mp hz with hz | hz
            · subst hz
              exact le_trans (hle _ (List.mem_cons_self _ _)) hc
            · exact hle z (List.mem_cons_of_mem x hz)

theorem strikes_ne_nil (spot : ℝ) : strikes spot ≠ [] := by
  intro h
  have h21 := strikes_length spot
  rw [h] at h21
  exact absurd h21 (by norm_num)

theorem atm_spec (spot : ℝ) :
    atm_strike spot ∈ strikes spot
      ∧ (∀ K ∈ strikes spot, |atm_strike spot - spot| ≤ |K - spot|)
      ∧ ∃ l1 l2, strikes spot = l1 ++ atm_strike spot :: l2
          ∧ ∀ K ∈ l1, |atm_strike spot - spot| < |K - spot| := by
  cases hxs : strikes spot with
  | nil => exact absurd hxs (strikes_ne_nil spot)
  | cons x xs =>
    have hatm : atm_strike spot = pyMin (fun k => |k - spot|) x xs := by
      unfold atm_strike
      rw [hxs]
    obtain ⟨l1, l2, heq, hlt, hle⟩ := pyMin_spec (fun k => |k - spot|) x xs
    refine ⟨?_, ?_, l1, l2, ?_, ?_⟩
    · rw [hatm, heq]
      exact List.mem_append_right l1 (List.mem_cons_self _ _)
    · intro K hK
      rw [hatm]
      exact hle K hK
    · rw [hatm]
      exact heq
    · intro K hK
      rw [hatm]
      exact hlt K hK

/-- C5: the strike grid is the ascending sequence of points from spot - 2.0 to
spot + 3.0 inclusive stepping by 0.25, each rounded to 4 decimal places, and
the chain has exactly one row per grid point: its length equals the number of
grid points (the k with spot - 2.0 + 0.25*k <= spot + 3.0, which is 21). -/
theorem C5_chain_grid (spot T rd rf vol : ℝ) :
    strikes spot = (List.range 21).map (fun i : ℕ => pyRound 4 (spot - 2.0 + 0.25 * (i : ℝ)))
      ∧ List.Chain' (· < ·) (strikes spot)
      ∧ (chain_rows spot T rd rf vol).length = (strikes spot).length
      ∧ (strikes spot).length = 21
      ∧ (∀ k : ℕ, spot - 2.0 + 0.25 * (k : ℝ) ≤ spot + 3.0 ↔ k < 21) := by
  refine ⟨strikes_eq spot, strikes_chain spot, ?_, strikes_length spot, ?_⟩
  · unfold chain_rows
    rw [List.length_map]
  · intro k
    constructor
    · intro h
      have h20 : (k : ℝ) ≤ 20 := by linarith
      have hk : k ≤ 20 := by exact_mod_cast h20
      omega
    · intro h
      have hk : k ≤ 20 := by omega
      have h20 : (k : ℝ) ≤ 20 := by exact_mod_cast hk
      linarith

theorem chain_row_status (spot T rd rf vol K : ℝ) :
    (chain_row spot T rd rf vol K).status =
      if |K - atm_strike spot| ≤ 1e-6 then "ATM"
      else if K < spot then "ITM"
      else "OTM" := rfl

theorem chain_row_strike (spot T rd rf vol K : ℝ) :
    (chain_row spot T rd rf vol K).strike = K := rfl

theorem status_ne_atm (spot T rd rf vol K : ℝ) (hK : K ∈ strikes spot)
    (hne : K ≠ atm_strike spot) : (chain_row spot T rd rf vol K).status ≠ "ATM" := by
  have hmem := (atm_spec spot).1
  have hgt := strikes_sep spot K hK (atm_strike spot) hmem hne
  rw [chain_row_status, if_neg hgt]
  by_cases hlt : K < spot
  · rw [if_pos hlt]
    decide
  · rw [if_neg hlt]
    decide

/-- C6: in every generated chain exactly one row is classified ATM; the ATM
row's strike is atm_strike, a strike of minimal distance to spot and the first
such strike in ascending order; every other row is ITM when its strike is
below spot and OTM otherwise. -/
theorem C6_unique_atm (spot T rd rf vol : ℝ) :
    ((chain_rows spot T rd rf vol).countP (fun r => r.status == "ATM") = 1)
      ∧ (∀ r ∈ chain_rows spot T rd rf vol, r.status = "ATM" →
          r.strike = atm_strike spot
            ∧ ∀ K ∈ strikes spot, |r.strike - spot| ≤ |K - spot|)
      ∧ (∃ l1 l2, strikes spot = l1 ++ atm_strike spot :: l2
            ∧ ∀ K ∈ l1, |atm_strike spot - spot| < |K - spot|)
      ∧ (∀ r ∈ chain_rows spot T rd rf vol, r.status ≠ "ATM" →
          r.status = (if r.strike < spot then "ITM" else "OTM")) := by
  obtain ⟨hmem, hmin, l1, l2, heq, hfirst⟩ := atm_spec spot
  have hnodup : (l1 ++ atm_strike spot :: l2).Nodup := by
    rw [← heq]
    exact strikes_nodup spot
  have hatm_not_l2 : atm_strike spot ∉ l2 :=
    (List.nodup_cons.mp hnodup.of_append_right).1
  have hmem_l1 : ∀ K ∈ l1, K ∈ strikes spot := by
    intro K hK
    rw [heq]
    exact List.mem_append_left _ hK
  have hmem_l2 : ∀ K ∈ l2, K ∈ strikes spot := by
    intro K hK
    rw [heq]
    exact List.mem_append_right _ (List.mem_cons_of_mem _ hK)
  have hne_l1 : ∀ K ∈ l1, K ≠ atm_strike spot := by
    intro K hK hKe
    have hcon := hfirst K hK
    rw [hKe] at hcon
    exact lt_irrefl _ hcon
  have hne_l2 : ∀ K ∈ l2, K ≠ atm_strike spot := by
    intro K hK hKe
    rw [hKe] at hK
    exact hatm_not_l2 hK
  refine ⟨?_, ?_, ⟨l1, l2, heq, hfirst⟩, ?_⟩
  · unfold chain_rows
    rw [heq, List.map_append, List.map_cons, List.countP_append, List.countP_cons]
    have hz1 : (l1.map (chain_row spot T rd rf vol)).countP (fun r => r.status == "ATM") = 0 := by
      rw [List.countP_eq_zero]
      intro r hr
      obtain ⟨K, hK, rfl⟩ := List.mem_map.mp hr
      simp only [beq_iff_eq]
      exact status_ne_atm spot T rd rf vol K (hmem_l1 K hK) (hne_l1 K hK)
    have hz2 : (l2.map (chain_row spot T rd rf vol)).countP (fun r => r.status == "ATM") = 0 := by
      rw [List.countP_eq_zero]
      intro r hr
      obtain ⟨K, hK, rfl⟩ := List.mem_map.mp hr
      simp only [beq_iff_eq]
      exact status_ne_atm spot T rd rf vol K (hmem_l2 K hK) (hne_l2 K hK)
    have hpos : (chain_row spot T rd rf vol (atm_strike spot)).status = "ATM" := by
      rw [chain_row_status, if_pos]
      rw [sub_self, abs_zero]
      norm_num
    rw [hz1, hz2]
    simp [hpos]
  · intro r hr hstat
    obtain ⟨K, hK, rfl⟩ := List.mem_map.mp hr
    have hKatm : K = atm_strike spot := by
      by_contra hne
      exact status_ne_atm spot T rd rf vol K hK hne hstat
    rw [chain_row_strike, hKatm]
    exact ⟨rfl, hmin⟩
  · intro r hr hstat
    obtain ⟨K, hK, rfl⟩ := List.mem_map.mp hr
    rw [chain_row_status, chain_row_strike]
    rw [chain_row_status] at hstat
    by_cases hatm : |K - atm_strike spot| ≤ 1e-6
    · rw [if_pos hatm] at hstat
      exact absurd rfl hstat
    · rw [if_neg hatm]
